import Mathlib

/-!
Verification development for the `cozy-syzygy` tablebase probing library.

The Rust sources are shallowly embedded:
* `u8` / `u32` / `u64` arithmetic is modelled on `Nat` with an explicit
  `% 256` / `% 2^32` / `% 2^64` where the machine width matters
  (release-mode wrapping semantics); an operation whose overflow is a
  checked panic in Rust is modelled with `Option`, `none` being the panic.
* fallible code returns `Except` / `Option`.
* external chess-rules facilities (`cozy_chess`: boards, move generation,
  `play_unchecked`) are abstracted as explicit data carried by a
  `Position` record and by oracle function parameters.
-/

/-- Embeds `enum Wdl` from `src/lib.rs` (declaration order `Loss <
`BlessedLoss` < `Draw` < `CursedWin` < `Win`, as derived by `Ord`). -/
inductive Wdl where
  | Loss
  | BlessedLoss
  | Draw
  | CursedWin
  | Win
deriving DecidableEq

/-- Rank of a `Wdl` value in the derived `Ord` order of `src/lib.rs`. -/
def Wdl.toNat : Wdl → Nat
  | .Loss => 0
  | .BlessedLoss => 1
  | .Draw => 2
  | .CursedWin => 3
  | .Win => 4

/-- The derived `<` on `Wdl` (`src/lib.rs`, `derive(PartialOrd, Ord)`). -/
def Wdl.lt (a b : Wdl) : Bool := a.toNat < b.toNat

/-- Rust `Ord::min` on `Wdl`: `if self > other { other } else { self }`. -/
def Wdl.min (a b : Wdl) : Wdl := if Wdl.lt b a then b else a

/-- Embeds `impl Neg for Wdl` (`src/lib.rs` lines 30-42). -/
def Wdl.neg : Wdl → Wdl
  | .Loss => .Win
  | .BlessedLoss => .CursedWin
  | .Draw => .Draw
  | .CursedWin => .BlessedLoss
  | .Win => .Loss

/-- The `cozy_chess::Piece` enumeration (external), in its declaration
order `Pawn = 0, Knight = 1, Bishop = 2, Rook = 3, Queen = 4, King = 5`,
which is the order used by `Piece as usize` indexing in `src/lib.rs`. -/
inductive Piece where
  | Pawn
  | Knight
  | Bishop
  | Rook
  | Queen
  | King
deriving DecidableEq

/-- `cozy_chess::Color` (external): `White = 0`, `Black = 1`. -/
inductive Color where
  | White
  | Black
deriving DecidableEq

/-- `Color` negation (`!color` in Rust). -/
def Color.not : Color → Color
  | .White => .Black
  | .Black => .White

/-- One side's five piece counts: the `[u8; 5]` array of
`struct Material` (`src/lib.rs` line 89), indexed by `Piece as usize`
(pawn 0, knight 1, bishop 2, rook 3, queen 4).  Counts are `Nat`s holding
`u8` values; increments wrap mod 256 where the code uses `u8` addition. -/
structure SideCounts where
  pawns : Nat
  knights : Nat
  bishops : Nat
  rooks : Nat
  queens : Nat
deriving DecidableEq

/-- `[u8;5]` indexing by `Piece as usize` for the non-king pieces. -/
def SideCounts.get (s : SideCounts) : Nat → Nat
  | 0 => s.pawns
  | 1 => s.knights
  | 2 => s.bishops
  | 3 => s.rooks
  | 4 => s.queens
  | _ => 0

/-- `self.0[c].iter().sum::<u8>()` — the wrapping `u8` sum of one side's
counts (`src/lib.rs` lines 97-98). -/
def SideCounts.sum8 (s : SideCounts) : Nat :=
  (s.pawns + s.knights + s.bishops + s.rooks + s.queens) % 256

/-- The all-zero counts (`Default` for the array). -/
def SideCounts.zero : SideCounts := ⟨0, 0, 0, 0, 0⟩

/-- Embeds `struct Material([[u8; 5]; 2])` from `src/lib.rs` line 89;
index 0 is White's counts, index 1 Black's. -/
structure Material where
  white : SideCounts
  black : SideCounts
deriving DecidableEq

/-- `Material::default()` — all counts zero (KvK). -/
def Material.default : Material := ⟨SideCounts.zero, SideCounts.zero⟩

/-- Embeds `Material::is_symmetric` (`src/lib.rs` lines 92-94). -/
def Material.is_symmetric (m : Material) : Bool := m.white = m.black

/-- Embeds the `for p in CANONICAL_PIECE_ORDER` comparison loop of
`Material::is_canonical` (`src/lib.rs` lines 104-110): fold over the
(white, black) count pairs in canonical order Q, R, B, N, P; the first
strict difference decides, equality falls through to `true`.  The Rust
`match cmp` on `Ordering` is rendered as an `if` chain. -/
def lexGECounts : List (Nat × Nat) → Bool
  | [] => true
  | (w, b) :: rest =>
    if b < w then true
    else if w < b then false
    else lexGECounts rest

/-- The (white, black) pairs in `CANONICAL_PIECE_ORDER` = Q, R, B, N, P
(`src/lib.rs` lines 80-86). -/
def Material.canonicalPairs (m : Material) : List (Nat × Nat) :=
  [(m.white.queens, m.black.queens), (m.white.rooks, m.black.rooks),
   (m.white.bishops, m.black.bishops), (m.white.knights, m.black.knights),
   (m.white.pawns, m.black.pawns)]

/-- Embeds `Material::is_canonical` (`src/lib.rs` lines 96-112): compare
the wrapping `u8` sums, then (on a tie) the counts piece by piece in
canonical order, defaulting to `true` for fully symmetric material. -/
def Material.is_canonical (m : Material) : Bool :=
  if m.black.sum8 < m.white.sum8 then true
  else if m.white.sum8 < m.black.sum8 then false
  else lexGECounts m.canonicalPairs

/-- Embeds `Material::flip` (`src/lib.rs` lines 114-116). -/
def Material.flip (m : Material) : Material := ⟨m.black, m.white⟩

/-- Embeds `Material::count` (`src/lib.rs` lines 118-120):
`self.0.iter().flatten().sum::<u8>() + 2`, all in wrapping `u8`. -/
def Material.count (m : Material) : Nat :=
  ((m.white.pawns + m.white.knights + m.white.bishops + m.white.rooks +
      m.white.queens + m.black.pawns + m.black.knights + m.black.bishops +
      m.black.rooks + m.black.queens) % 256 + 2) % 256

/-- `MAX_PIECES` (`src/lib.rs` line 10). -/
def MAX_PIECES : Nat := 8

/-- Embeds the white/black pawn-count swap of the pawnful table loader
(`src/table/pawnful.rs` lines 37-41): starting from
`(white_pawns, black_pawns)`, swap when `white_pawns == 0 ||
black_pawns != 0 && black_pawns < white_pawns`. -/
def pawnCountSwap (white_pawns black_pawns : Nat) : Nat × Nat :=
  if white_pawns = 0 ∨ (black_pawns ≠ 0 ∧ black_pawns < white_pawns) then
    (black_pawns, white_pawns)
  else
    (white_pawns, black_pawns)

-- ------------------------------------------------------------------
-- C7: canonicality totality
-- ------------------------------------------------------------------

theorem lexGECounts_total (l : List (Nat × Nat)) :
    lexGECounts l = true ∨ lexGECounts (l.map (fun p => (p.2, p.1))) = true := by
  induction l with
  | nil => left; rfl
  | cons hd tl ih =>
    obtain ⟨w, b⟩ := hd
    rcases Nat.lt_trichotomy w b with h | h | h
    · right
      simp only [List.map_cons, lexGECounts]
      rw [if_pos h]
    · subst h
      rcases ih with ih | ih
      · left
        simp only [lexGECounts]
        rw [if_neg (lt_irrefl w), if_neg (lt_irrefl w)]
        exact ih
      · right
        simp only [List.map_cons, lexGECounts]
        rw [if_neg (lt_irrefl w), if_neg (lt_irrefl w)]
        exact ih
    · left
      simp only [lexGECounts]
      rw [if_pos h]

theorem canonicalPairs_flip (m : Material) :
    m.flip.canonicalPairs = m.canonicalPairs.map (fun p => (p.2, p.1)) := by
  rfl

/-- C7: for every `Material` value `M` (two arrays of five `u8` piece
counts), `is_canonical(M) ∨ is_canonical(flip(M))` holds, where `flip`
swaps the two colour arrays. -/
theorem canonical_or_flip_canonical (m : Material) :
    m.is_canonical = true ∨ m.flip.is_canonical = true := by
  unfold Material.is_canonical
  have e1 : m.flip.black.sum8 = m.white.sum8 := rfl
  have e2 : m.flip.white.sum8 = m.black.sum8 := rfl
  rw [e1, e2, canonicalPairs_flip]
  rcases Nat.lt_trichotomy m.white.sum8 m.black.sum8 with h | h | h
  · right
    rw [if_pos h]
  · rw [if_neg (by omega), if_neg (by omega), if_neg (by omega), if_neg (by omega)]
    exact lexGECounts_total m.canonicalPairs
  · left
    rw [if_pos h]

-- ------------------------------------------------------------------
-- C5: pawn-count swap in the pawnful loader
-- ------------------------------------------------------------------

/-- C5 counterexample: the claim asserts that after the swap the counts
satisfy `wp ≤ bp` for every material with at least one pawn.  For KPvK
(`white_pawns = 1`, `black_pawns = 0`) no swap occurs and the resulting
counts are `(1, 0)`, violating `wp ≤ bp`. -/
theorem pawnCountSwap_claim_false :
    1 + 0 > 0 ∧ ¬ ((pawnCountSwap 1 0).1 ≤ (pawnCountSwap 1 0).2) := by
  decide

/-- C5 (amended): for every material with at least one pawn, after the
pawn-count swap step the resulting white count is positive, and it is
bounded by the resulting black count whenever the black count is also
positive (i.e. `wp ≤ bp` holds when both sides keep pawns, not
unconditionally). -/
theorem pawnCountSwap_invariant (wp bp : Nat) (h : 0 < wp + bp) :
    0 < (pawnCountSwap wp bp).1 ∧
      (0 < (pawnCountSwap wp bp).2 →
        (pawnCountSwap wp bp).1 ≤ (pawnCountSwap wp bp).2) := by
  unfold pawnCountSwap
  split
  · next hc =>
    rcases hc with h0 | ⟨hb, hlt⟩
    · subst h0
      simp only []
      omega
    · simp only []
      omega
  · next hc =>
    push_neg at hc
    obtain ⟨h1, h2⟩ := hc
    simp only []
    omega

theorem pawnCountSwap_invariant_witness :
    0 < (pawnCountSwap 2 1).1 ∧
      (0 < (pawnCountSwap 2 1).2 →
        (pawnCountSwap 2 1).1 ≤ (pawnCountSwap 2 1).2) :=
  pawnCountSwap_invariant 2 1 (by decide)

-- ------------------------------------------------------------------
-- Material string parsing and formatting (src/lib.rs lines 137-189)
-- ------------------------------------------------------------------

/-- The `io::ErrorKind` values the embedded code produces (only
`Other`, from the magic check in `src/table.rs`). -/
inductive IoErrorKind where
  | other
deriving DecidableEq

/-- Embeds `enum SyzygyError` (`src/lib.rs` lines 44-49).  The Rust
variants are `NotSyzygy`, `UnknownMaterial` and `Io(std::io::Error)`. -/
inductive SyzygyError where
  | notSyzygy
  | unknownMaterial
  | ioError (kind : IoErrorKind)
deriving DecidableEq

/-- Embeds `impl From<std::io::Error> for SyzygyError`
(`src/lib.rs` lines 51-55): every io error surfaces as the `Io`
variant. -/
def syzygyErrorFromIo (kind : IoErrorKind) : SyzygyError := .ioError kind

/-- Embeds the `index` closure of `Material::from_str`
(`src/lib.rs` lines 160-168): `none` means the character is skipped
(`'K'`), `some (.ok i)` gives the `Piece as usize` array index, and any
other character yields `UnknownMaterial`.  Only the uppercase letters
are matched. -/
def charIndex (c : Char) : Option (Except SyzygyError Nat) :=
  if c = 'Q' then some (.ok 4)
  else if c = 'R' then some (.ok 3)
  else if c = 'B' then some (.ok 2)
  else if c = 'N' then some (.ok 1)
  else if c = 'P' then some (.ok 0)
  else if c = 'K' then none
  else some (.error .unknownMaterial)

/-- `white_counts[c?] += 1` on a `[u8; 5]` array: wrapping `u8`
increment of the count at index `i`. -/
def SideCounts.bump (s : SideCounts) : Nat → SideCounts
  | 0 => { s with pawns := (s.pawns + 1) % 256 }
  | 1 => { s with knights := (s.knights + 1) % 256 }
  | 2 => { s with bishops := (s.bishops + 1) % 256 }
  | 3 => { s with rooks := (s.rooks + 1) % 256 }
  | 4 => { s with queens := (s.queens + 1) % 256 }
  | _ => s

/-- Embeds one `filter_map(index).try_for_each(...)` pass of
`Material::from_str` (`src/lib.rs` lines 170-185): tally the piece
letters of one section, stopping at the first unknown character. -/
def tallySection : List Char → SideCounts → Except SyzygyError SideCounts
  | [], acc => .ok acc
  | c :: rest, acc =>
    match charIndex c with
    | none => tallySection rest acc
    | some (.error e) => .error e
    | some (.ok i) => tallySection rest (acc.bump i)

/-- Embeds `Material::from_str` (`src/lib.rs` lines 155-189).  The Rust
`(&mut chars).take_while(|&c| c != 'v')` consumes the white section up
to and including the first `'v'`; the remaining characters form the
black section. -/
def Material.fromStr (s : List Char) : Except SyzygyError Material :=
  let whiteSection := s.takeWhile (fun c => c ≠ 'v')
  let blackSection := (s.dropWhile (fun c => c ≠ 'v')).drop 1
  match tallySection whiteSection SideCounts.zero with
  | .error e => .error e
  | .ok w =>
    match tallySection blackSection SideCounts.zero with
    | .error e => .error e
    | .ok b => .ok ⟨w, b⟩

/-- Embeds `impl Display for Material` (`src/lib.rs` lines 137-153):
`K`, the white counts as repeated uppercase letters in canonical order
Q, R, B, N, P, then `vK` and the black counts likewise. -/
def Material.format (m : Material) : List Char :=
  'K' :: (List.replicate m.white.queens 'Q' ++ List.replicate m.white.rooks 'R' ++
    List.replicate m.white.bishops 'B' ++ List.replicate m.white.knights 'N' ++
    List.replicate m.white.pawns 'P') ++
  'v' :: 'K' :: (List.replicate m.black.queens 'Q' ++ List.replicate m.black.rooks 'R' ++
    List.replicate m.black.bishops 'B' ++ List.replicate m.black.knights 'N' ++
    List.replicate m.black.pawns 'P')

/-- All ten counts of a `Material` fit in a `u8`, as the Rust type
`[[u8; 5]; 2]` guarantees. -/
def Material.fitsU8 (m : Material) : Prop :=
  m.white.pawns < 256 ∧ m.white.knights < 256 ∧ m.white.bishops < 256 ∧
  m.white.rooks < 256 ∧ m.white.queens < 256 ∧
  m.black.pawns < 256 ∧ m.black.knights < 256 ∧ m.black.bishops < 256 ∧
  m.black.rooks < 256 ∧ m.black.queens < 256

instance (m : Material) : Decidable m.fitsU8 := by
  unfold Material.fitsU8
  infer_instance

-- ------------------------------------------------------------------
-- C4 / C8: parser lemmas
-- ------------------------------------------------------------------

/-- A character the `index` closure rejects: anything outside
`{Q, R, B, N, P, K}` (uppercase only). -/
def badMaterialChar (c : Char) : Prop :=
  c ∉ (['Q', 'R', 'B', 'N', 'P', 'K'] : List Char)

instance (c : Char) : Decidable (badMaterialChar c) := by
  unfold badMaterialChar
  infer_instance

theorem charIndex_of_bad (c : Char) (h : badMaterialChar c) :
    charIndex c = some (.error .unknownMaterial) := by
  unfold badMaterialChar at h
  simp only [List.mem_cons, List.not_mem_nil, or_false] at h
  push_neg at h
  obtain ⟨h1, h2, h3, h4, h5, h6⟩ := h
  unfold charIndex
  rw [if_neg h1, if_neg h2, if_neg h3, if_neg h4, if_neg h5, if_neg h6]

theorem tallySection_of_bad (l : List Char) (acc : SideCounts)
    (h : ∃ c ∈ l, badMaterialChar c) :
    tallySection l acc = .error .unknownMaterial := by
  induction l generalizing acc with
  | nil => obtain ⟨c, hc, _⟩ := h; exact absurd hc (List.not_mem_nil c)
  | cons hd tl ih =>
    obtain ⟨c, hc, hbad⟩ := h
    rcases List.mem_cons.mp hc with rfl | hmem
    · rw [tallySection, charIndex_of_bad c hbad]
    · by_cases hhd : badMaterialChar hd
      · rw [tallySection, charIndex_of_bad hd hhd]
      · unfold badMaterialChar at hhd
        rw [not_not] at hhd
        rw [tallySection]
        have : ∃ c ∈ tl, badMaterialChar c := ⟨c, hmem, hbad⟩
        fin_cases hhd <;>
          simp only [charIndex, if_pos, if_neg, reduceIte] <;>
          exact ih _ this

theorem tallySection_of_good (l : List Char) (acc : SideCounts)
    (h : ∀ c ∈ l, ¬ badMaterialChar c) :
    ∃ t, tallySection l acc = .ok t := by
  induction l generalizing acc with
  | nil => exact ⟨acc, rfl⟩
  | cons hd tl ih =>
    have hhd := h hd (List.mem_cons_self hd tl)
    unfold badMaterialChar at hhd
    rw [not_not] at hhd
    have htl : ∀ c ∈ tl, ¬ badMaterialChar c :=
      fun c hc => h c (List.mem_cons_of_mem hd hc)
    rw [tallySection]
    fin_cases hhd <;>
      simp only [charIndex, reduceIte] <;>
      exact ih _ htl

theorem tallySection_skip_K (l : List Char) (acc : SideCounts) :
    tallySection ('K' :: l) acc = tallySection l acc := rfl

theorem tallySection_replicate (c : Char) (i : Nat)
    (hc : charIndex c = some (.ok i)) (k : Nat) (rest : List Char)
    (acc : SideCounts) :
    tallySection (List.replicate k c ++ rest) acc =
      tallySection rest ((fun s => SideCounts.bump s i)^[k] acc) := by
  induction k generalizing acc with
  | zero => rfl
  | succ n ih =>
    rw [List.replicate_succ, List.cons_append, tallySection, hc,
      Function.iterate_succ_apply]
    exact ih _

theorem bump_iter_queens (k : Nat) (s : SideCounts) (h : s.queens < 256) :
    (fun t => SideCounts.bump t 4)^[k] s =
      { s with queens := (s.queens + k) % 256 } := by
  induction k generalizing s with
  | zero => cases s; simp [Nat.mod_eq_of_lt h]
  | succ n ih =>
    rw [Function.iterate_succ_apply]
    have h2 : (SideCounts.bump s 4).queens < 256 := by
      simp only [SideCounts.bump]
      omega
    rw [ih _ h2]
    cases s
    simp only [SideCounts.bump]
    congr 1
    simp only [] at *
    omega

theorem bump_iter_rooks (k : Nat) (s : SideCounts) (h : s.rooks < 256) :
    (fun t => SideCounts.bump t 3)^[k] s =
      { s with rooks := (s.rooks + k) % 256 } := by
  induction k generalizing s with
  | zero => cases s; simp [Nat.mod_eq_of_lt h]
  | succ n ih =>
    rw [Function.iterate_succ_apply]
    have h2 : (SideCounts.bump s 3).rooks < 256 := by
      simp only [SideCounts.bump]
      omega
    rw [ih _ h2]
    cases s
    simp only [SideCounts.bump]
    congr 1
    simp only [] at *
    omega

theorem bump_iter_bishops (k : Nat) (s : SideCounts) (h : s.bishops < 256) :
    (fun t => SideCounts.bump t 2)^[k] s =
      { s with bishops := (s.bishops + k) % 256 } := by
  induction k generalizing s with
  | zero => cases s; simp [Nat.mod_eq_of_lt h]
  | succ n ih =>
    rw [Function.iterate_succ_apply]
    have h2 : (SideCounts.bump s 2).bishops < 256 := by
      simp only [SideCounts.bump]
      omega
    rw [ih _ h2]
    cases s
    simp only [SideCounts.bump]
    congr 1
    simp only [] at *
    omega

theorem bump_iter_knights (k : Nat) (s : SideCounts) (h : s.knights < 256) :
    (fun t => SideCounts.bump t 1)^[k] s =
      { s with knights := (s.knights + k) % 256 } := by
  induction k generalizing s with
  | zero => cases s; simp [Nat.mod_eq_of_lt h]
  | succ n ih =>
    rw [Function.iterate_succ_apply]
    have h2 : (SideCounts.bump s 1).knights < 256 := by
      simp only [SideCounts.bump]
      omega
    rw [ih _ h2]
    cases s
    simp only [SideCounts.bump]
    congr 1
    simp only [] at *
    omega

theorem bump_iter_pawns (k : Nat) (s : SideCounts) (h : s.pawns < 256) :
    (fun t => SideCounts.bump t 0)^[k] s =
      { s with pawns := (s.pawns + k) % 256 } := by
  induction k generalizing s with
  | zero => cases s; simp [Nat.mod_eq_of_lt h]
  | succ n ih =>
    rw [Function.iterate_succ_apply]
    have h2 : (SideCounts.bump s 0).pawns < 256 := by
      simp only [SideCounts.bump]
      omega
    rw [ih _ h2]
    cases s
    simp only [SideCounts.bump]
    congr 1
    simp only [] at *
    omega

/-- Tallying one side's canonical letter block `Q^q R^r B^b N^n P^p`
starting from the all-zero counts yields exactly those counts (mod
256). -/
theorem tallySection_canonical_block (q r b n p : Nat) :
    tallySection
      (List.replicate q 'Q' ++ List.replicate r 'R' ++ List.replicate b 'B' ++
        List.replicate n 'N' ++ List.replicate p 'P')
      SideCounts.zero =
      .ok ⟨p % 256, n % 256, b % 256, r % 256, q % 256⟩ := by
  rw [List.append_assoc, List.append_assoc, List.append_assoc]
  rw [tallySection_replicate 'Q' 4 rfl]
  rw [bump_iter_queens _ _ (by decide)]
  rw [tallySection_replicate 'R' 3 rfl]
  rw [bump_iter_rooks _ _ (by simp [SideCounts.zero])]
  rw [tallySection_replicate 'B' 2 rfl]
  rw [bump_iter_bishops _ _ (by simp [SideCounts.zero])]
  rw [tallySection_replicate 'N' 1 rfl]
  rw [bump_iter_knights _ _ (by simp [SideCounts.zero])]
  have : List.replicate p 'P' = List.replicate p 'P' ++ [] := by simp
  rw [this, tallySection_replicate 'P' 0 rfl]
  rw [bump_iter_pawns _ _ (by simp [SideCounts.zero])]
  simp [SideCounts.zero, tallySection, Nat.zero_add]

theorem takeWhile_append_all (p : Char → Bool) (l1 l2 : List Char)
    (h : ∀ c ∈ l1, p c = true) :
    (l1 ++ l2).takeWhile p = l1 ++ l2.takeWhile p := by
  induction l1 with
  | nil => rfl
  | cons hd tl ih =>
    rw [List.cons_append, List.takeWhile_cons, h hd (List.mem_cons_self hd tl)]
    rw [ih fun c hc => h c (List.mem_cons_of_mem hd hc)]
    rfl

theorem dropWhile_append_all (p : Char → Bool) (l1 l2 : List Char)
    (h : ∀ c ∈ l1, p c = true) :
    (l1 ++ l2).dropWhile p = l2.dropWhile p := by
  induction l1 with
  | nil => rfl
  | cons hd tl ih =>
    rw [List.cons_append, List.dropWhile_cons, h hd (List.mem_cons_self hd tl)]
    exact ih fun c hc => h c (List.mem_cons_of_mem hd hc)

theorem mem_canonical_block (c : Char) (q r b n p : Nat)
    (h : c ∈ List.replicate q 'Q' ++ List.replicate r 'R' ++
      List.replicate b 'B' ++ List.replicate n 'N' ++ List.replicate p 'P') :
    c = 'Q' ∨ c = 'R' ∨ c = 'B' ∨ c = 'N' ∨ c = 'P' := by
  simp only [List.mem_append, List.mem_replicate] at h
  tauto

theorem takeWhile_canonical_split (A B : List Char) (hA : ∀ c ∈ A, c ≠ 'v') :
    ('K' :: A ++ 'v' :: B).takeWhile (fun c => c ≠ 'v') = 'K' :: A := by
  rw [show ('K' : Char) :: A ++ 'v' :: B = ('K' :: A) ++ 'v' :: B from rfl]
  rw [takeWhile_append_all _ ('K' :: A) _ ?_]
  · rw [List.takeWhile_cons]
    simp
  · intro c hc
    rcases List.mem_cons.mp hc with rfl | hm
    · decide
    · simp only [decide_eq_true_eq]
      exact hA c hm

theorem dropWhile_canonical_split (A B : List Char) (hA : ∀ c ∈ A, c ≠ 'v') :
    ('K' :: A ++ 'v' :: B).dropWhile (fun c => c ≠ 'v') = 'v' :: B := by
  rw [show ('K' : Char) :: A ++ 'v' :: B = ('K' :: A) ++ 'v' :: B from rfl]
  rw [dropWhile_append_all _ ('K' :: A) _ ?_]
  · rw [List.dropWhile_cons]
    simp
  · intro c hc
    rcases List.mem_cons.mp hc with rfl | hm
    · decide
    · simp only [decide_eq_true_eq]
      exact hA c hm

theorem canonical_block_no_v (q r b n p : Nat) :
    ∀ c ∈ List.replicate q 'Q' ++ List.replicate r 'R' ++
      List.replicate b 'B' ++ List.replicate n 'N' ++ List.replicate p 'P',
      c ≠ 'v' := by
  intro c hc
  rcases mem_canonical_block c q r b n p hc with rfl | rfl | rfl | rfl | rfl <;>
    decide

/-- C8: for every `Material` value `M` (with `u8` counts, as in the Rust
type), parsing the string produced by formatting `M` yields `M` back. -/
theorem material_format_parse_roundtrip (m : Material) (h : m.fitsU8) :
    Material.fromStr m.format = .ok m := by
  obtain ⟨hwp, hwn, hwb, hwr, hwq, hbp, hbn, hbb, hbr, hbq⟩ := h
  have hA := canonical_block_no_v m.white.queens m.white.rooks m.white.bishops
    m.white.knights m.white.pawns
  simp only [Material.format, Material.fromStr]
  rw [takeWhile_canonical_split _ _ hA, dropWhile_canonical_split _ _ hA]
  rw [List.drop_succ_cons, List.drop_zero]
  rw [tallySection_skip_K, tallySection_canonical_block]
  rw [tallySection_skip_K, tallySection_canonical_block]
  rw [Nat.mod_eq_of_lt hwp, Nat.mod_eq_of_lt hwn, Nat.mod_eq_of_lt hwb,
    Nat.mod_eq_of_lt hwr, Nat.mod_eq_of_lt hwq, Nat.mod_eq_of_lt hbp,
    Nat.mod_eq_of_lt hbn, Nat.mod_eq_of_lt hbb, Nat.mod_eq_of_lt hbr,
    Nat.mod_eq_of_lt hbq]

theorem material_format_parse_roundtrip_witness :
    Material.fromStr (Material.format ⟨⟨0, 0, 0, 0, 1⟩, ⟨1, 0, 0, 0, 0⟩⟩) =
      .ok ⟨⟨0, 0, 0, 0, 1⟩, ⟨1, 0, 0, 0, 0⟩⟩ :=
  material_format_parse_roundtrip ⟨⟨0, 0, 0, 0, 1⟩, ⟨1, 0, 0, 0, 0⟩⟩ (by decide)

/-- C4 counterexample: the claim asserts lowercase piece letters parse
the same as uppercase ones.  The `index` closure matches only the
uppercase letters, so `"KqvK"` is rejected with `UnknownMaterial` while
`"KQvK"` parses to KQvK — the two results differ. -/
theorem fromStr_lowercase_rejected :
    Material.fromStr ['K', 'q', 'v', 'K'] = .error .unknownMaterial ∧
    Material.fromStr ['K', 'Q', 'v', 'K'] =
      .ok ⟨⟨0, 0, 0, 0, 1⟩, SideCounts.zero⟩ ∧
    Material.fromStr ['K', 'q', 'v', 'K'] ≠ Material.fromStr ['K', 'Q', 'v', 'K'] := by
  have h1 : Material.fromStr ['K', 'q', 'v', 'K'] = .error .unknownMaterial := rfl
  have h2 : Material.fromStr ['K', 'Q', 'v', 'K'] =
      .ok ⟨⟨0, 0, 0, 0, 1⟩, SideCounts.zero⟩ := rfl
  refine ⟨h1, h2, ?_⟩
  rw [h1, h2]
  intro hcontra
  exact Except.noConfusion hcontra

/-- C4 (amended): material string parsing accepts every string of the
form `K<w-pieces>vK<b-pieces>` whose piece letters are the uppercase
letters Q, R, B, N, P (yielding the letter counts, as `u8` values), and
rejects any string containing a character outside `{K, Q, R, B, N, P}`
in its white section (before the first `v`) or in its black section
(after the first `v`) with the `UnknownMaterial` error; parsing is
case-sensitive, so lowercase piece letters are rejected, not accepted. -/
theorem material_parse_charset :
    (∀ wq wr wb wn wp bq br bb bn bp : Nat,
      Material.fromStr ('K' ::
          (List.replicate wq 'Q' ++ List.replicate wr 'R' ++
            List.replicate wb 'B' ++ List.replicate wn 'N' ++
            List.replicate wp 'P') ++ 'v' :: 'K' ::
          (List.replicate bq 'Q' ++ List.replicate br 'R' ++
            List.replicate bb 'B' ++ List.replicate bn 'N' ++
            List.replicate bp 'P')) =
        .ok ⟨⟨wp % 256, wn % 256, wb % 256, wr % 256, wq % 256⟩,
          ⟨bp % 256, bn % 256, bb % 256, br % 256, bq % 256⟩⟩) ∧
    (∀ s : List Char,
      ((∃ c ∈ s.takeWhile (fun c => c ≠ 'v'), badMaterialChar c) ∨
        (∃ c ∈ (s.dropWhile (fun c => c ≠ 'v')).drop 1, badMaterialChar c)) →
      Material.fromStr s = .error .unknownMaterial) := by
  constructor
  · intro wq wr wb wn wp bq br bb bn bp
    have hA := canonical_block_no_v wq wr wb wn wp
    simp only [Material.fromStr]
    rw [takeWhile_canonical_split _ _ hA, dropWhile_canonical_split _ _ hA]
    rw [List.drop_succ_cons, List.drop_zero]
    rw [tallySection_skip_K, tallySection_canonical_block]
    rw [tallySection_skip_K, tallySection_canonical_block]
  · intro s hbad
    simp only [Material.fromStr]
    rcases hbad with hw | hb
    · rw [tallySection_of_bad _ _ hw]
    · by_cases hw : ∃ c ∈ s.takeWhile (fun c => c ≠ 'v'), badMaterialChar c
      · rw [tallySection_of_bad _ _ hw]
      · push_neg at hw
        obtain ⟨t, ht⟩ := tallySection_of_good _ SideCounts.zero hw
        rw [ht, tallySection_of_bad _ _ hb]

theorem material_parse_charset_witness :
    Material.fromStr ('K' ::
        (List.replicate 1 'Q' ++ List.replicate 0 'R' ++
          List.replicate 0 'B' ++ List.replicate 0 'N' ++
          List.replicate 0 'P') ++ 'v' :: 'K' ::
        (List.replicate 0 'Q' ++ List.replicate 0 'R' ++
          List.replicate 0 'B' ++ List.replicate 0 'N' ++
          List.replicate 1 'P')) =
      .ok ⟨⟨0 % 256, 0 % 256, 0 % 256, 0 % 256, 1 % 256⟩,
        ⟨1 % 256, 0 % 256, 0 % 256, 0 % 256, 0 % 256⟩⟩ ∧
    Material.fromStr ['K', 'x', 'v', 'K'] = .error .unknownMaterial :=
  ⟨material_parse_charset.1 1 0 0 0 0 0 0 0 0 1,
    material_parse_charset.2 ['K', 'x', 'v', 'K'] (Or.inl (by decide))⟩

-- ------------------------------------------------------------------
-- Tablebase loading state (src/tablebase.rs lines 11-149)
-- ------------------------------------------------------------------

/-- Embeds `struct Tablebase` (`src/tablebase.rs` lines 11-14).  The
`HashMap<Material, WdlTable>` is modelled by its key set (as a list):
the claims under verification never inspect the stored table values,
only which materials are present. -/
structure Tablebase where
  max_pieces : Nat
  wdl : List Material

/-- Embeds `Tablebase::new` (`src/tablebase.rs` lines 17-22). -/
def Tablebase.new : Tablebase := ⟨2, []⟩

/-- Outcome of one load call: `Ok(())`, `Err(e)`, or a panic raised by
the `assert!` piece-cap check. -/
inductive LoadOutcome where
  | ok
  | err (e : SyzygyError)
  | panicked
deriving DecidableEq

/-- Embeds `Tablebase::load_file_with_material`
(`src/tablebase.rs` lines 70-94): parse the material string, `assert!`
the piece cap (a failing assert is the `panicked` outcome, raised before
any file access), then, when the entry is vacant, open the file
(`openResult` abstracts `File::open` + `Mmap::map`), load the table
(`tableLoad` abstracts `WdlTable::load`), insert it and raise
`max_pieces`. -/
def loadFileWithMaterial (tb : Tablebase) (material : List Char)
    (openResult : Except SyzygyError Unit)
    (tableLoad : Material → Except SyzygyError Unit) :
    LoadOutcome × Tablebase :=
  match Material.fromStr material with
  | .error e => (.err e, tb)
  | .ok m =>
    if ¬ m.count ≤ MAX_PIECES then (.panicked, tb)
    else if m ∈ tb.wdl then (.ok, tb)
    else
      match openResult with
      | .error e => (.err e, tb)
      | .ok _ =>
        match tableLoad m with
        | .error e => (.err e, tb)
        | .ok _ => (.ok, ⟨Nat.max tb.max_pieces m.count, m :: tb.wdl⟩)

/-- Embeds `Tablebase::load_bytes_static`
(`src/tablebase.rs` lines 101-119): as above, without a file to open. -/
def loadBytesStatic (tb : Tablebase) (material : List Char)
    (tableLoad : Material → Except SyzygyError Unit) :
    LoadOutcome × Tablebase :=
  match Material.fromStr material with
  | .error e => (.err e, tb)
  | .ok m =>
    if ¬ m.count ≤ MAX_PIECES then (.panicked, tb)
    else if m ∈ tb.wdl then (.ok, tb)
    else
      match tableLoad m with
      | .error e => (.err e, tb)
      | .ok _ => (.ok, ⟨Nat.max tb.max_pieces m.count, m :: tb.wdl⟩)

/-- Embeds `Tablebase::load_bytes_owned`
(`src/tablebase.rs` lines 126-144); identical in structure to the
static-bytes loader. -/
def loadBytesOwned (tb : Tablebase) (material : List Char)
    (tableLoad : Material → Except SyzygyError Unit) :
    LoadOutcome × Tablebase :=
  match Material.fromStr material with
  | .error e => (.err e, tb)
  | .ok m =>
    if ¬ m.count ≤ MAX_PIECES then (.panicked, tb)
    else if m ∈ tb.wdl then (.ok, tb)
    else
      match tableLoad m with
      | .error e => (.err e, tb)
      | .ok _ => (.ok, ⟨Nat.max tb.max_pieces m.count, m :: tb.wdl⟩)

/-- One load operation, covering all three public load entry points. -/
inductive LoadOp where
  | fromFile (material : List Char) (openResult : Except SyzygyError Unit)
      (tableLoad : Material → Except SyzygyError Unit)
  | fromStatic (material : List Char)
      (tableLoad : Material → Except SyzygyError Unit)
  | fromOwned (material : List Char)
      (tableLoad : Material → Except SyzygyError Unit)

/-- The material string passed to a load operation. -/
def LoadOp.materialStr : LoadOp → List Char
  | .fromFile s _ _ => s
  | .fromStatic s _ => s
  | .fromOwned s _ => s

/-- Dispatch one load operation. -/
def Tablebase.applyLoadOp (tb : Tablebase) : LoadOp → LoadOutcome × Tablebase
  | .fromFile s o t => loadFileWithMaterial tb s o t
  | .fromStatic s t => loadBytesStatic tb s t
  | .fromOwned s t => loadBytesOwned tb s t

/-- Run a sequence of load operations. -/
def Tablebase.execLoadOps (tb : Tablebase) (ops : List LoadOp) : Tablebase :=
  ops.foldl (fun st op => (st.applyLoadOp op).2) tb

/-- The reachability invariant of the loading state: `max_pieces` is at
least 2 and bounds the piece count of every loaded material. -/
def TbInv (tb : Tablebase) : Prop :=
  2 ≤ tb.max_pieces ∧ ∀ m ∈ tb.wdl, m.count ≤ tb.max_pieces


/-- Case characterization of one `load_bytes_static` call: either the
state is unchanged (and an `Ok` outcome means the material was already
present), or a fresh table was inserted and `max_pieces` raised. -/
theorem loadBytesStatic_cases (tb : Tablebase) (s : List Char)
    (t : Material → Except SyzygyError Unit) :
    ((loadBytesStatic tb s t).2 = tb ∧
      ((loadBytesStatic tb s t).1 = .ok →
        ∃ m, Material.fromStr s = .ok m ∧ m ∈ tb.wdl)) ∨
    (∃ m, Material.fromStr s = .ok m ∧ m ∉ tb.wdl ∧
      loadBytesStatic tb s t =
        (.ok, ⟨Nat.max tb.max_pieces m.count, m :: tb.wdl⟩)) := by
  unfold loadBytesStatic
  split
  · left
    exact ⟨rfl, fun h => LoadOutcome.noConfusion h⟩
  · next m hp =>
    split
    · left
      exact ⟨rfl, fun h => LoadOutcome.noConfusion h⟩
    · split
      · next hmem =>
        left
        exact ⟨rfl, fun _ => ⟨m, hp, hmem⟩⟩
      · next hmem =>
        split
        · left
          exact ⟨rfl, fun h => LoadOutcome.noConfusion h⟩
        · right
          exact ⟨m, hp, hmem, rfl⟩

/-- Same characterization for `load_bytes_owned`. -/
theorem loadBytesOwned_cases (tb : Tablebase) (s : List Char)
    (t : Material → Except SyzygyError Unit) :
    ((loadBytesOwned tb s t).2 = tb ∧
      ((loadBytesOwned tb s t).1 = .ok →
        ∃ m, Material.fromStr s = .ok m ∧ m ∈ tb.wdl)) ∨
    (∃ m, Material.fromStr s = .ok m ∧ m ∉ tb.wdl ∧
      loadBytesOwned tb s t =
        (.ok, ⟨Nat.max tb.max_pieces m.count, m :: tb.wdl⟩)) := by
  unfold loadBytesOwned
  split
  · left
    exact ⟨rfl, fun h => LoadOutcome.noConfusion h⟩
  · next m hp =>
    split
    · left
      exact ⟨rfl, fun h => LoadOutcome.noConfusion h⟩
    · split
      · next hmem =>
        left
        exact ⟨rfl, fun _ => ⟨m, hp, hmem⟩⟩
      · next hmem =>
        split
        · left
          exact ⟨rfl, fun h => LoadOutcome.noConfusion h⟩
        · right
          exact ⟨m, hp, hmem, rfl⟩

/-- Same characterization for `load_file_with_material` (with the extra
`File::open` / `Mmap::map` failure point). -/
theorem loadFileWithMaterial_cases (tb : Tablebase) (s : List Char)
    (o : Except SyzygyError Unit) (t : Material → Except SyzygyError Unit) :
    ((loadFileWithMaterial tb s o t).2 = tb ∧
      ((loadFileWithMaterial tb s o t).1 = .ok →
        ∃ m, Material.fromStr s = .ok m ∧ m ∈ tb.wdl)) ∨
    (∃ m, Material.fromStr s = .ok m ∧ m ∉ tb.wdl ∧
      loadFileWithMaterial tb s o t =
        (.ok, ⟨Nat.max tb.max_pieces m.count, m :: tb.wdl⟩)) := by
  unfold loadFileWithMaterial
  split
  · left
    exact ⟨rfl, fun h => LoadOutcome.noConfusion h⟩
  · next m hp =>
    split
    · left
      exact ⟨rfl, fun h => LoadOutcome.noConfusion h⟩
    · split
      · next hmem =>
        left
        exact ⟨rfl, fun _ => ⟨m, hp, hmem⟩⟩
      · next hmem =>
        split
        · left
          exact ⟨rfl, fun h => LoadOutcome.noConfusion h⟩
        · split
          · left
            exact ⟨rfl, fun h => LoadOutcome.noConfusion h⟩
          · right
            exact ⟨m, hp, hmem, rfl⟩

/-- Combined characterization for a dispatched load operation. -/
theorem applyLoadOp_cases (tb : Tablebase) (op : LoadOp) :
    ((tb.applyLoadOp op).2 = tb ∧
      ((tb.applyLoadOp op).1 = .ok →
        ∃ m, Material.fromStr op.materialStr = .ok m ∧ m ∈ tb.wdl)) ∨
    (∃ m, Material.fromStr op.materialStr = .ok m ∧ m ∉ tb.wdl ∧
      tb.applyLoadOp op =
        (.ok, ⟨Nat.max tb.max_pieces m.count, m :: tb.wdl⟩)) := by
  cases op with
  | fromFile s o t => exact loadFileWithMaterial_cases tb s o t
  | fromStatic s t => exact loadBytesStatic_cases tb s t
  | fromOwned s t => exact loadBytesOwned_cases tb s t

theorem applyLoadOp_max_mono (tb : Tablebase) (op : LoadOp) :
    tb.max_pieces ≤ (tb.applyLoadOp op).2.max_pieces := by
  rcases applyLoadOp_cases tb op with ⟨heq, _⟩ | ⟨m, _, _, heq⟩
  · rw [heq]
  · rw [heq]
    exact Nat.le_max_left _ _

theorem applyLoadOp_inv (tb : Tablebase) (op : LoadOp) (h : TbInv tb) :
    TbInv (tb.applyLoadOp op).2 := by
  obtain ⟨h2, hmem⟩ := h
  rcases applyLoadOp_cases tb op with ⟨heq, _⟩ | ⟨m, _, _, heq⟩
  · rw [heq]
    exact ⟨h2, hmem⟩
  · rw [heq]
    refine ⟨Nat.le_trans h2 (Nat.le_max_left _ _), ?_⟩
    intro m' hm'
    rcases List.mem_cons.mp hm' with rfl | hm'
    · exact Nat.le_max_right _ _
    · exact Nat.le_trans (hmem m' hm') (Nat.le_max_left _ _)

theorem execLoadOps_inv (tb : Tablebase) (ops : List LoadOp) (h : TbInv tb) :
    TbInv (tb.execLoadOps ops) := by
  induction ops generalizing tb with
  | nil => exact h
  | cons op rest ih => exact ih _ (applyLoadOp_inv tb op h)

theorem execLoadOps_max_mono (tb : Tablebase) (ops : List LoadOp) :
    tb.max_pieces ≤ (tb.execLoadOps ops).max_pieces := by
  induction ops generalizing tb with
  | nil => exact Nat.le_refl _
  | cons op rest ih =>
    exact Nat.le_trans (applyLoadOp_max_mono tb op) (ih (tb.applyLoadOp op).2)

theorem applyLoadOp_success_max (tb : Tablebase) (op : LoadOp) (m : Material)
    (hinv : TbInv tb) (hparse : Material.fromStr op.materialStr = .ok m)
    (hok : (tb.applyLoadOp op).1 = .ok) :
    (tb.applyLoadOp op).2.max_pieces = Nat.max tb.max_pieces m.count := by
  obtain ⟨_, hmem⟩ := hinv
  rcases applyLoadOp_cases tb op with ⟨heq, hdup⟩ | ⟨m', hp', _, heq⟩
  · obtain ⟨m', hp', hm'⟩ := hdup hok
    rw [hparse] at hp'
    obtain rfl := Except.ok.inj hp'
    rw [heq]
    exact (Nat.max_eq_left (hmem _ hm')).symm
  · rw [hparse] at hp'
    obtain rfl := Except.ok.inj hp'
    rw [heq]

/-- C9: a fresh `Tablebase` reports `max_pieces() == 2` with no table
loaded; across any sequence of load operations `max_pieces` stays at
least 2 and never decreases; and every load that returns `Ok` for a
material of count `c` leaves `max_pieces` equal to
`max(max_pieces, c)` (for a duplicate load the map and counter are
untouched, and the reachability invariant gives `c ≤ max_pieces`, so
the equation still holds). -/
theorem max_pieces_invariant (ops more : List LoadOp) (op : LoadOp)
    (m : Material) :
    Tablebase.new.max_pieces = 2 ∧
    2 ≤ (Tablebase.new.execLoadOps ops).max_pieces ∧
    (Tablebase.new.execLoadOps ops).max_pieces ≤
      ((Tablebase.new.execLoadOps ops).execLoadOps more).max_pieces ∧
    (Material.fromStr op.materialStr = .ok m →
      ((Tablebase.new.execLoadOps ops).applyLoadOp op).1 = .ok →
      ((Tablebase.new.execLoadOps ops).applyLoadOp op).2.max_pieces =
        Nat.max (Tablebase.new.execLoadOps ops).max_pieces m.count) := by
  have hinv : TbInv (Tablebase.new.execLoadOps ops) :=
    execLoadOps_inv Tablebase.new ops
      ⟨Nat.le_refl 2, fun m hm => absurd hm (List.not_mem_nil m)⟩
  refine ⟨rfl, hinv.1, execLoadOps_max_mono _ more, ?_⟩
  intro hp hok
  exact applyLoadOp_success_max _ op m hinv hp hok

theorem max_pieces_invariant_witness :
    Tablebase.new.max_pieces = 2 ∧
    ((Tablebase.new.execLoadOps []).applyLoadOp
        (LoadOp.fromStatic ['K', 'Q', 'v', 'K'] (fun _ => .ok ()))).2.max_pieces =
      Nat.max (Tablebase.new.execLoadOps []).max_pieces
        (Material.mk ⟨0, 0, 0, 0, 1⟩ SideCounts.zero).count :=
  ⟨(max_pieces_invariant [] []
      (LoadOp.fromStatic ['K', 'Q', 'v', 'K'] (fun _ => .ok ()))
      ⟨⟨0, 0, 0, 0, 1⟩, SideCounts.zero⟩).1,
    (max_pieces_invariant [] []
      (LoadOp.fromStatic ['K', 'Q', 'v', 'K'] (fun _ => .ok ()))
      ⟨⟨0, 0, 0, 0, 1⟩, SideCounts.zero⟩).2.2.2 rfl rfl⟩

/-- C10: for every material string parsing to a material whose total
count (including both kings) exceeds `MAX_PIECES = 8`, each of
`load_file_with_material`, `load_bytes_static` and `load_bytes_owned`
panics via the `assert!` (it does not return a `SyzygyError`), and does
so before opening or reading any backing data — the outcome is
independent of the open/load oracles — leaving the table map and
`max_pieces` unchanged. -/
theorem load_piece_cap_panics (tb : Tablebase) (s : List Char) (m : Material)
    (o : Except SyzygyError Unit) (t : Material → Except SyzygyError Unit)
    (hparse : Material.fromStr s = .ok m) (hcount : MAX_PIECES < m.count) :
    loadFileWithMaterial tb s o t = (.panicked, tb) ∧
    loadBytesStatic tb s t = (.panicked, tb) ∧
    loadBytesOwned tb s t = (.panicked, tb) := by
  have hass : ¬ m.count ≤ MAX_PIECES := by omega
  refine ⟨?_, ?_, ?_⟩
  · simp [loadFileWithMaterial, hparse, hass]
  · simp [loadBytesStatic, hparse, hass]
  · simp [loadBytesOwned, hparse, hass]

theorem load_piece_cap_panics_witness :
    loadBytesStatic Tablebase.new
        ['K', 'Q', 'Q', 'Q', 'Q', 'Q', 'Q', 'Q', 'v', 'K']
        (fun _ => .ok ()) =
      (.panicked, Tablebase.new) :=
  (load_piece_cap_panics Tablebase.new
    ['K', 'Q', 'Q', 'Q', 'Q', 'Q', 'Q', 'Q', 'v', 'K']
    ⟨⟨0, 0, 0, 0, 7⟩, SideCounts.zero⟩ (.ok ()) (fun _ => .ok ())
    rfl (by decide)).2.1

-- ------------------------------------------------------------------
-- Position abstraction and the probe layer (src/tablebase.rs 157-299)
-- ------------------------------------------------------------------

/-- One `PieceMoves` group yielded by `cozy_chess`'s move generator: a
moving piece and the list of its target squares (`mvs.to` as a square
list; `mvs.len()` is its length).  Squares are 0..63 with A1 = 0. -/
structure MoveGroup where
  piece : Piece
  targets : List Nat
deriving DecidableEq

/-- Abstraction of a `cozy_chess::Board` with exactly the read-only
facilities the probe layer uses: side to move, the four castling-right
flags, piece counts per (colour, piece) (the popcount of
`pieces(p) & colors(c)`), occupancy per colour (`colors(c)`), the
en-passant file, and the generated legal move groups. -/
structure Position where
  stm : Color
  castleWhiteShort : Bool
  castleWhiteLong : Bool
  castleBlackShort : Bool
  castleBlackLong : Bool
  pieceCount : Color → Piece → Nat
  colorOcc : Color → Nat → Bool
  epFile : Option Nat
  moveGroups : List MoveGroup

/-- The material-counting loop of `Tablebase::read_wdl`
(`src/tablebase.rs` lines 273-281): counts per (colour, piece),
excluding kings. -/
def materialOf (pos : Position) : Material :=
  ⟨⟨pos.pieceCount .White .Pawn, pos.pieceCount .White .Knight,
    pos.pieceCount .White .Bishop, pos.pieceCount .White .Rook,
    pos.pieceCount .White .Queen⟩,
   ⟨pos.pieceCount .Black .Pawn, pos.pieceCount .Black .Knight,
    pos.pieceCount .Black .Bishop, pos.pieceCount .Black .Rook,
    pos.pieceCount .Black .Queen⟩⟩

/-- Embeds `Tablebase::read_wdl` (`src/tablebase.rs` lines 263-299).
`tables` abstracts the `HashMap` lookup composed with
`WdlTable::read`: `tables m` is `Some` of the table's read function
when material `m` is loaded. -/
def readWdl (tables : Material → Option (Position → Bool → Wdl))
    (pos : Position) : Option Wdl :=
  if pos.castleWhiteShort || pos.castleWhiteLong ||
      pos.castleBlackShort || pos.castleBlackLong then
    none
  else
    let material := materialOf pos
    if material = Material.default then
      some .Draw
    else
      let color_flip : Bool :=
        !material.is_canonical ||
          (material.is_symmetric && decide (pos.stm = .Black))
      let material2 := if color_flip then material.flip else material
      (tables material2).map (fun read => read pos color_flip)

/-- The en-passant target square of `Tablebase::probe_wdl`
(`src/tablebase.rs` lines 164-167):
`Square::new(f, Rank::Sixth.relative_to(side_to_move))`, i.e. rank 5
for White to move and rank 2 for Black to move. -/
def epSquareOf (pos : Position) : Option Nat :=
  pos.epFile.map fun f =>
    8 * (match pos.stm with | .White => 5 | .Black => 2) + f

/-- `let ep = mvs.piece == Piece::Pawn && mv.to.bitboard() == ep_mask`
(`src/tablebase.rs` line 178); with no en-passant square the mask is
empty and the comparison is false. -/
def isEpMove (pos : Position) (g : MoveGroup) (sq : Nat) : Bool :=
  decide (g.piece = .Pawn) && decide (epSquareOf pos = some sq)

/-- The capture mask `their_pieces | (pawn ? ep_mask : empty)` applied
to a move group's targets (`src/tablebase.rs` lines 172-176). -/
def captureKeep (pos : Position) (g : MoveGroup) (sq : Nat) : Bool :=
  pos.colorOcc pos.stm.not sq || isEpMove pos g sq

/-- A capture move pushed by the harvesting closure, with its
en-passant flag. -/
structure CaptureMove where
  piece : Piece
  toSq : Nat
  ep : Bool
deriving DecidableEq

/-- The capture moves one group contributes
(`src/tablebase.rs` lines 172-184). -/
def groupCaptures (pos : Position) (g : MoveGroup) : List CaptureMove :=
  (g.targets.filter (fun sq => captureKeep pos g sq)).map
    fun sq => ⟨g.piece, sq, isEpMove pos g sq⟩

/-- All capture moves, in generation order. -/
def capturesOf (pos : Position) : List CaptureMove :=
  (pos.moveGroups.map (groupCaptures pos)).flatten

/-- `num_moves_without_ep` (`src/tablebase.rs` lines 169-186): add each
group's `mvs.len()`, then subtract one for each pushed en-passant
capture of that group. -/
def numMovesWithoutEp (pos : Position) : Nat :=
  pos.moveGroups.foldl
    (fun acc g =>
      acc + g.targets.length - (groupCaptures pos g).countP (fun c => c.ep))
    0

/-- `false_stalemate = num_moves_without_ep == 0 && !captures.is_empty()`
(`src/tablebase.rs` line 192). -/
def falseStalemateOf (pos : Position) : Bool :=
  decide (numMovesWithoutEp pos = 0) && !(capturesOf pos).isEmpty

/-- The capture search's initial alpha
(`src/tablebase.rs` lines 193-196). -/
def initialAlphaOf (pos : Position) (v : Wdl) : Wdl :=
  if falseStalemateOf pos then .Loss else Wdl.min .Draw v

/-- The `for (mv, ep) in captures` loop and the final result selection
of `Tablebase::probe_wdl` (`src/tablebase.rs` lines 198-218).  `pab`
abstracts `play_unchecked` followed by the recursive
`probe_alpha_beta` call on the resulting position (external move
application plus the recursive search). -/
def captureSearch (pab : Position → CaptureMove → Wdl → Wdl → Option Wdl)
    (pos : Position) (v : Wdl) (fs : Bool) :
    List CaptureMove → Wdl → Bool → Bool → Option (Wdl × Bool)
  | [], alpha, bestCap, bestEp =>
    if !fs && Wdl.lt alpha v then some (v, false)
    else some (alpha, bestCap || bestEp || fs)
  | cap :: rest, alpha, bestCap, bestEp =>
    match pab pos cap .Loss alpha.neg with
    | none => none
    | some w =>
      let v2 := w.neg
      if Wdl.lt alpha v2 then
        if v2 = .Win then some (.Win, true)
        else captureSearch pab pos v fs rest v2 (Wdl.lt .Draw v2) cap.ep
      else captureSearch pab pos v fs rest alpha bestCap bestEp

/-- Embeds `Tablebase::probe_wdl` (`src/tablebase.rs` lines 157-219). -/
def probeWdl (tables : Material → Option (Position → Bool → Wdl))
    (pab : Position → CaptureMove → Wdl → Wdl → Option Wdl)
    (pos : Position) : Option (Wdl × Bool) :=
  match readWdl tables pos with
  | none => none
  | some v =>
    captureSearch pab pos v (falseStalemateOf pos) (capturesOf pos)
      (initialAlphaOf pos v) false false

/-- Whether any generated capture is an en-passant capture. -/
def epCaptureExists (pos : Position) : Bool :=
  (capturesOf pos).any fun c => c.ep

theorem groupCaptures_length_le (pos : Position) (g : MoveGroup) :
    (groupCaptures pos g).length ≤ g.targets.length := by
  unfold groupCaptures
  rw [List.length_map]
  exact List.length_filter_le _ _

theorem numMovesWithoutEp_eq_sum (pos : Position) :
    numMovesWithoutEp pos =
      (pos.moveGroups.map
        (fun g => g.targets.length -
          (groupCaptures pos g).countP (fun c => c.ep))).sum := by
  unfold numMovesWithoutEp
  have key : ∀ (l : List MoveGroup) (acc : Nat),
      l.foldl
        (fun acc g =>
          acc + g.targets.length -
            (groupCaptures pos g).countP (fun c => c.ep)) acc =
        acc + (l.map
          (fun g => g.targets.length -
            (groupCaptures pos g).countP (fun c => c.ep))).sum := by
    intro l
    induction l with
    | nil => intro acc; simp
    | cons hd tl ih =>
      intro acc
      rw [List.foldl_cons, ih, List.map_cons, List.sum_cons]
      have h1 : (groupCaptures pos hd).countP (fun c => c.ep) ≤
          (groupCaptures pos hd).length :=
        List.countP_le_length _
      have h2 := groupCaptures_length_le pos hd
      omega
  rw [key]
  exact Nat.zero_add _

theorem falseStalemate_iff (pos : Position) :
    falseStalemateOf pos = true ↔
      numMovesWithoutEp pos = 0 ∧ epCaptureExists pos = true := by
  unfold falseStalemateOf epCaptureExists
  rw [Bool.and_eq_true, decide_eq_true_eq, Bool.not_eq_true']
  constructor
  · rintro ⟨hnum, hne⟩
    refine ⟨hnum, ?_⟩
    obtain ⟨c, hc⟩ : ∃ c, c ∈ capturesOf pos := by
      cases hcap : capturesOf pos with
      | nil => rw [hcap] at hne; simp at hne
      | cons a l => exact ⟨a, List.mem_cons_self a l⟩
    obtain ⟨lc, hlc, hcin⟩ := List.mem_flatten.mp hc
    obtain ⟨g, hg, rfl⟩ := List.mem_map.mp hlc
    rw [numMovesWithoutEp_eq_sum] at hnum
    have hterm0 : g.targets.length -
        (groupCaptures pos g).countP (fun c => c.ep) = 0 :=
      List.sum_eq_zero_iff.mp hnum _ (List.mem_map_of_mem _ hg)
    have hle : (groupCaptures pos g).countP (fun c => c.ep) ≤
        (groupCaptures pos g).length :=
      List.countP_le_length _
    have hle2 := groupCaptures_length_le pos g
    have hpos : 0 < (groupCaptures pos g).length :=
      List.length_pos_of_mem hcin
    have hcp : 0 < (groupCaptures pos g).countP (fun c => c.ep) := by omega
    obtain ⟨c', hc', hep⟩ := List.countP_pos_iff.mp hcp
    rw [List.any_eq_true]
    exact ⟨c', List.mem_flatten.mpr ⟨_, List.mem_map_of_mem _ hg, hc'⟩, hep⟩
  · rintro ⟨hnum, hany⟩
    refine ⟨hnum, ?_⟩
    obtain ⟨c, hc, _⟩ := List.any_eq_true.mp hany
    cases hcap : capturesOf pos with
    | nil => rw [hcap] at hc; exact absurd hc (List.not_mem_nil c)
    | cons a l => rfl

/-- C1: in `probe_wdl`, with `v` the tablebase value of the position
(`read_wdl` defined), the capture search's initial alpha is `Loss`
exactly when the count of generated moves minus en-passant moves is
zero but en-passant captures exist (`false_stalemate`), and otherwise
is `min(Draw, v)`.  (The code tests `!captures.is_empty()`; when the
en-passant-free move count is zero every generated capture is an
en-passant capture, so that test coincides with the claim's "en-passant
captures exist".) -/
theorem initial_alpha_characterization
    (tables : Material → Option (Position → Bool → Wdl)) (pos : Position)
    (v : Wdl) (hread : readWdl tables pos = some v) :
    initialAlphaOf pos v =
      if numMovesWithoutEp pos = 0 ∧ epCaptureExists pos = true then Wdl.Loss
      else Wdl.min .Draw v := by
  unfold initialAlphaOf
  by_cases hc : numMovesWithoutEp pos = 0 ∧ epCaptureExists pos = true
  · rw [if_pos hc, if_pos ((falseStalemate_iff pos).mpr hc)]
  · rw [if_neg hc, if_neg (fun hfs => hc ((falseStalemate_iff pos).mp hfs))]

/-- A concrete legal KvK position: white king a1, black king h8, white
to move, no castling rights, no en passant, king moves to b1/a2/b2. -/
def kvkPosition : Position :=
  { stm := .White
    castleWhiteShort := false
    castleWhiteLong := false
    castleBlackShort := false
    castleBlackLong := false
    pieceCount := fun _ p => if p = .King then 1 else 0
    colorOcc := fun c sq =>
      match c with
      | .White => sq == 0
      | .Black => sq == 63
    epFile := none
    moveGroups := [⟨.King, [1, 8, 9]⟩] }

theorem initial_alpha_characterization_witness :
    initialAlphaOf kvkPosition .Draw =
      if numMovesWithoutEp kvkPosition = 0 ∧
          epCaptureExists kvkPosition = true
      then Wdl.Loss else Wdl.min .Draw .Draw :=
  initial_alpha_characterization (fun _ => none) kvkPosition .Draw rfl

/-- C6: for every legal position containing only the two kings (KvK —
all non-king material counts are zero) with no castling rights,
`probe_wdl` returns `Some((Draw, false))` for either side to move,
independently of which tables are loaded (the conclusion is quantified
over every table map and search oracle — no table is consulted).  A
legal KvK position has no en-passant square and its generated moves
never land on the opposing king, which is all the theorem assumes of
the external move generator. -/
theorem kvk_probe_draw (pos : Position)
    (hcs : pos.castleWhiteShort = false) (hcl : pos.castleWhiteLong = false)
    (hbs : pos.castleBlackShort = false) (hbl : pos.castleBlackLong = false)
    (hmat : materialOf pos = Material.default)
    (hep : pos.epFile = none)
    (hlegal : ∀ g ∈ pos.moveGroups, ∀ sq ∈ g.targets,
      pos.colorOcc pos.stm.not sq = false)
    (tables : Material → Option (Position → Bool → Wdl))
    (pab : Position → CaptureMove → Wdl → Wdl → Option Wdl) :
    probeWdl tables pab pos = some (.Draw, false) := by
  have hread : readWdl tables pos = some .Draw := by
    simp [readWdl, hcs, hcl, hbs, hbl, hmat]
  have hgroups : ∀ g ∈ pos.moveGroups, groupCaptures pos g = [] := by
    intro g hg
    unfold groupCaptures
    have hfilter : g.targets.filter (fun sq => captureKeep pos g sq) = [] := by
      rw [List.filter_eq_nil_iff]
      intro sq hsq
      unfold captureKeep isEpMove epSquareOf
      rw [hlegal g hg sq hsq, hep]
      simp
    rw [hfilter]
    rfl
  have hcap : capturesOf pos = [] := by
    unfold capturesOf
    have key : ∀ l : List MoveGroup, (∀ g ∈ l, groupCaptures pos g = []) →
        (l.map (groupCaptures pos)).flatten = [] := by
      intro l
      induction l with
      | nil => intro _; rfl
      | cons hd tl ih =>
        intro hall
        rw [List.map_cons, List.flatten_cons,
          hall hd (List.mem_cons_self hd tl),
          ih fun g hg => hall g (List.mem_cons_of_mem hd hg)]
        rfl
    exact key pos.moveGroups hgroups
  have hfs : falseStalemateOf pos = false := by
    unfold falseStalemateOf
    rw [hcap]
    simp
  have halpha : initialAlphaOf pos .Draw = .Draw := by
    unfold initialAlphaOf
    rw [hfs]
    rfl
  simp only [probeWdl, hread, hcap, hfs, halpha]
  rfl

theorem kvk_probe_draw_witness :
    probeWdl (fun _ => none) (fun _ _ _ _ => none) kvkPosition =
      some (.Draw, false) :=
  kvk_probe_draw kvkPosition rfl rfl rfl rfl rfl rfl (by decide)
    (fun _ => none) (fun _ _ _ _ => none)

-- ------------------------------------------------------------------
-- Byte reads, the table dispatcher (src/table.rs), C2
-- ------------------------------------------------------------------

/-- `u32::from_le_bytes` of the 4 bytes at offset `i`; `none` models
the slice-bounds panic of `DataStream::read_array`. -/
def readU32leAt (bytes : List Nat) (i : Nat) : Option Nat :=
  match bytes.drop i with
  | b0 :: b1 :: b2 :: b3 :: _ =>
    some (b0 + 256 * b1 + 65536 * b2 + 16777216 * b3)
  | _ => none

/-- `u16::from_le_bytes` of the 2 bytes at offset `i`. -/
def readU16le (bytes : List Nat) (i : Nat) : Option Nat :=
  match bytes.drop i with
  | b0 :: b1 :: _ => some (b0 + 256 * b1)
  | _ => none

/-- The pawnless/pawnful variant selected by the table dispatcher. -/
inductive VariantTag where
  | pawnless
  | pawnful
deriving DecidableEq

/-- Embeds `WdlTable::load` (`src/table.rs` lines 26-47) up to variant
selection: read the leading u32le and require the magic `0x5D23E871`,
failing with `std::io::Error::from(std::io::ErrorKind::Other)` — a
plain io error, not the `NotSyzygy` variant — otherwise dispatch on
the total pawn count (`u8` addition).  The header parsing of the
selected variant is irrelevant to the claim about the magic check and
is abstracted to the variant tag; the outer `Option` models panics of
the byte reads. -/
def wdlTableLoad (bytes : List Nat) (material : Material) :
    Option (Except IoErrorKind VariantTag) :=
  match readU32leAt bytes 0 with
  | none => none
  | some magic =>
    if magic ≠ 0x5d23e871 then some (.error .other)
    else if (material.white.pawns + material.black.pawns) % 256 = 0 then
      some (.ok .pawnless)
    else
      some (.ok .pawnful)

/-- C2 (what the code does at the claim's inputs): for every byte
region whose first u32le differs from the magic `0x5D23E871`,
`WdlTable::load` fails — but it produces `io::Error` of kind `Other`,
which `From<io::Error> for SyzygyError` surfaces as the `Io` variant;
no io error ever surfaces as `NotSyzygy` (that variant is never
constructed anywhere in the crate). -/
theorem load_magic_mismatch_is_io (bytes : List Nat) (m : Material)
    (b0 b1 b2 b3 : Nat) (rest : List Nat)
    (hbytes : bytes = b0 :: b1 :: b2 :: b3 :: rest)
    (hmagic : b0 + 256 * b1 + 65536 * b2 + 16777216 * b3 ≠ 0x5d23e871) :
    wdlTableLoad bytes m = some (.error .other) ∧
    ∀ k, syzygyErrorFromIo k ≠ .notSyzygy := by
  subst hbytes
  refine ⟨?_, ?_⟩
  · simp [wdlTableLoad, readU32leAt, hmagic]
  · intro k h
    exact SyzygyError.noConfusion h

theorem load_magic_mismatch_is_io_witness :
    wdlTableLoad [0, 0, 0, 0] Material.default = some (.error .other) ∧
    ∀ k, syzygyErrorFromIo k ≠ .notSyzygy :=
  load_magic_mismatch_is_io [0, 0, 0, 0] Material.default 0 0 0 0 []
    rfl (by decide)

-- ------------------------------------------------------------------
-- Pairs decoder (src/pairs.rs), C3
-- ------------------------------------------------------------------

/-- Checked Rust `u64` left shift (the `code <<= l` at
`src/pairs.rs` line 171): shifting a `u64` by 64 or more is an
arithmetic overflow — a panic when overflow checks are on — modelled
as `none`; otherwise the result is `code * 2^l mod 2^64`. -/
def shlU64Checked (x n : Nat) : Option Nat :=
  if n < 64 then some (x * 2 ^ n % 2 ^ 64) else none

/-- Release-mode (wrapping) Rust `u64` left shift: the shift amount is
masked to `n mod 64`, so shifting by 64 leaves the value unchanged. -/
def shlU64Wrap (x n : Nat) : Nat :=
  x * 2 ^ (n % 64) % 2 ^ 64

/-- Embeds `struct PairsData` (`src/pairs.rs` lines 3-15); byte slices
are byte lists, `base` holds `u64` values, `symlen` holds `u8`
values. -/
structure PairsData where
  index_bits : Nat
  min_len : Nat
  block_size : Nat
  offsets : List Nat
  sympat : List Nat
  symlen : List Nat
  base : List Nat
  index_table : List Nat
  size_table : List Nat
  data : List Nat
deriving DecidableEq

/-- The mutable state of the symbol loop of `PairsData::lookup`: the
64-bit code window, the refill bit count, the signed literal index,
and the remaining byte stream (`ptr`). -/
structure DecodeState where
  code : Nat
  bitcount : Nat
  litIndex : Int
  stream : List Nat
deriving DecidableEq

/-- `let mut l = self.min_len; while base(l) > code { l += 1 }`
(`src/pairs.rs` lines 162-165): the first length whose base is at most
the window; running past the `base` array is an index panic
(`none`). -/
def findCodeLen (pd : PairsData) (code : Nat) : Option Nat :=
  (pd.base.findIdx? (fun b => decide (b ≤ code))).map fun i => pd.min_len + i

/-- Outcome of one symbol-loop iteration: continue with a new state, or
break with the found symbol and the current literal index. -/
inductive SymLoopResult where
  | more (st : DecodeState)
  | broke (sym : Nat) (lit : Int)
deriving DecidableEq

/-- `u32::from_be_bytes` of the first 4 bytes. -/
def readU32be4 (bytes : List Nat) : Option Nat :=
  match bytes with
  | b0 :: b1 :: b2 :: b3 :: _ =>
    some (((b0 * 256 + b1) * 256 + b2) * 256 + b3)
  | _ => none

/-- `u64::from_be_bytes` of the first 8 bytes. -/
def readU64be (bytes : List Nat) : Option Nat :=
  match bytes with
  | b0 :: b1 :: b2 :: b3 :: b4 :: b5 :: b6 :: b7 :: _ =>
    some (((((((b0 * 256 + b1) * 256 + b2) * 256 + b3) * 256 + b4) * 256 +
      b5) * 256 + b6) * 256 + b7)
  | _ => none

/-- One iteration of the symbol loop of `PairsData::lookup`
(`src/pairs.rs` lines 161-178), with checked (debug) shift semantics:
find the code length `l`, resolve `sym = offset(l) + (code - base(l))
>> (64 - l)`, and either break with the symbol or consume it — shift
the window left by `l` (`none` when `l ≥ 64`: the shift overflows) and
reload 32 big-endian bits when at least 32 have been consumed.
`none` also models the out-of-bounds read panics. -/
def symLoopStep (pd : PairsData) (st : DecodeState) : Option SymLoopResult :=
  match findCodeLen pd st.code with
  | none => none
  | some l =>
    match pd.base.get? (l - pd.min_len),
        readU16le pd.offsets (2 * (l - pd.min_len)) with
    | some baseL, some offL =>
      if 64 < l then none
      else
        let sym := offL + (st.code - baseL) / 2 ^ (64 - l)
        match pd.symlen.get? sym with
        | none => none
        | some sl =>
          if st.litIndex < (sl : Int) + 1 then some (.broke sym st.litIndex)
          else
            match shlU64Checked st.code l with
            | none => none
            | some code2 =>
              let lit2 := st.litIndex - ((sl : Int) + 1)
              let bc2 := st.bitcount + l
              if 32 ≤ bc2 then
                match readU32be4 st.stream with
                | none => none
                | some w =>
                  some (.more ⟨code2 ||| (w <<< (bc2 - 32)), bc2 - 32, lit2,
                    st.stream.drop 4⟩)
              else
                some (.more ⟨code2, bc2, lit2, st.stream⟩)
    | _, _ => none

/-- The same iteration with release (wrapping) semantics for the
`code <<= l` shift. -/
def symLoopStepWrap (pd : PairsData) (st : DecodeState) :
    Option SymLoopResult :=
  match findCodeLen pd st.code with
  | none => none
  | some l =>
    match pd.base.get? (l - pd.min_len),
        readU16le pd.offsets (2 * (l - pd.min_len)) with
    | some baseL, some offL =>
      if 64 < l then none
      else
        let sym := offL + (st.code - baseL) / 2 ^ (64 - l)
        match pd.symlen.get? sym with
        | none => none
        | some sl =>
          if st.litIndex < (sl : Int) + 1 then some (.broke sym st.litIndex)
          else
            let code2 := shlU64Wrap st.code l
            let lit2 := st.litIndex - ((sl : Int) + 1)
            let bc2 := st.bitcount + l
            if 32 ≤ bc2 then
              match readU32be4 st.stream with
              | none => none
              | some w =>
                some (.more ⟨code2 ||| (w <<< (bc2 - 32)), bc2 - 32, lit2,
                  st.stream.drop 4⟩)
            else
              some (.more ⟨code2, bc2, lit2, st.stream⟩)
    | _, _ => none

/-- The backward block walk `while lit_index < 0 { block -= 1;
lit_index += size_table(block) + 1 }` (`src/pairs.rs` lines 135-139);
fuelled, with `none` for the `block` underflow or size-table read
panics (the walk takes at most `block + 1` steps). -/
def walkBack (size_table : List Nat) : Nat → Nat → Int → Option (Nat × Int)
  | 0, _, _ => none
  | _ + 1, 0, lit => if lit < 0 then none else some (0, lit)
  | fuel + 1, b + 1, lit =>
    if lit < 0 then
      match readU16le size_table (2 * b) with
      | none => none
      | some s => walkBack size_table fuel b (lit + s + 1)
    else some (b + 1, lit)

/-- The forward block walk `while lit_index > size_table(block) {
lit_index -= size_table(block) + 1; block += 1 }`
(`src/pairs.rs` lines 140-145). -/
def walkFwd (size_table : List Nat) : Nat → Nat → Int → Option (Nat × Int)
  | 0, _, _ => none
  | fuel + 1, block, lit =>
    match readU16le size_table (2 * block) with
    | none => none
    | some s =>
      if (s : Int) < lit then walkFwd size_table fuel (block + 1) (lit - s - 1)
      else some (block, lit)

/-- The pre-loop part of `PairsData::lookup` (`src/pairs.rs` lines
116-160) on the non-constant path: split the index into main index and
signed residual, read the block number and offset from the index
table, walk blocks until the residual fits, and load the first 64 bits
of the block big-endian.  The result is the initial state of the
symbol loop; `none` models the read panics. -/
def lookupSetup (pd : PairsData) (idx : Nat) : Option DecodeState :=
  let main_index := idx / 2 ^ pd.index_bits
  match readU32leAt pd.index_table (6 * main_index),
      readU16le pd.index_table (6 * main_index + 4) with
  | some block0, some off =>
    let lit0 : Int := ((idx % 2 ^ pd.index_bits : Nat) : Int) -
      ((2 ^ (pd.index_bits - 1) : Nat) : Int) + (off : Int)
    let fuel := pd.size_table.length + block0 + 2
    (if lit0 < 0 then walkBack pd.size_table fuel block0 lit0
      else walkFwd pd.size_table fuel block0 lit0).bind
      fun br =>
        let ptr := pd.data.drop (br.1 <<< pd.block_size)
        (readU64be ptr).map fun code => ⟨code, 0, br.2, ptr.drop 8⟩
  | _, _ => none

/-- Run the symbol loop to its break (fuelled). -/
def runSymLoop (pd : PairsData) : Nat → DecodeState → Option (Nat × Int)
  | 0, _ => none
  | fuel + 1, st =>
    match symLoopStep pd st with
    | none => none
    | some (.broke sym lit) => some (sym, lit)
    | some (.more st2) => runSymLoop pd fuel st2

/-- The 24-bit little-endian symbol-pattern word at symbol `s`
(`read_u24`, `src/pairs.rs` lines 213-215). -/
def readU24le (bytes : List Nat) (i : Nat) : Option Nat :=
  match bytes.drop i with
  | b0 :: b1 :: b2 :: _ => some (b0 + 256 * b1 + 65536 * b2)
  | _ => none

/-- The expansion loop `while symlen[sym] != 0 { ... }`
(`src/pairs.rs` lines 180-189), fuelled. -/
def expandSym (pd : PairsData) : Nat → Nat → Int → Option Nat
  | 0, _, _ => none
  | fuel + 1, sym, lit =>
    match pd.symlen.get? sym with
    | none => none
    | some sl =>
      if sl = 0 then some sym
      else
        match readU24le pd.sympat (3 * sym) with
        | none => none
        | some w =>
          let s1 := w % 4096
          match pd.symlen.get? s1 with
          | none => none
          | some sl1 =>
            if lit < (sl1 : Int) + 1 then expandSym pd fuel s1 lit
            else expandSym pd fuel (w / 4096) (lit - (sl1 : Int) - 1)

/-- Embeds `PairsData::lookup` (`src/pairs.rs` lines 111-192) with
checked shift semantics: constant-stream path, setup, symbol loop,
expansion loop, and the final literal read `sympat[3 * sym]`.  The
loops are fuelled; `none` is a panic or fuel exhaustion. -/
def lookup (pd : PairsData) (idx : Nat) (fuel : Nat) : Option Nat :=
  if pd.index_bits = 0 then some (pd.min_len % 256)
  else
    match lookupSetup pd idx with
    | none => none
    | some st0 =>
      match runSymLoop pd fuel st0 with
      | none => none
      | some (sym, lit) =>
        match expandSym pd fuel sym lit with
        | none => none
        | some sym2 => pd.sympat.get? (3 * sym2)

/-- The concrete crafted `PairsData` of the C3 counterexample:
`min_len = 64` with a single zero base entry makes the symbol loop
find code length `l = 64` immediately, and the literal index 2 forces
the loop to consume the symbol, executing `code <<= 64`. -/
def pairsCex : PairsData :=
  { index_bits := 1
    min_len := 64
    block_size := 0
    offsets := [0, 0]
    sympat := [0, 0, 0, 0, 0, 0]
    symlen := [9, 0]
    base := [0]
    index_table := [0, 0, 0, 0, 2, 0]
    size_table := [5, 0]
    data := [0, 0, 0, 0, 0, 0, 0, 1, 0, 0, 0, 0] }

/-- C3 counterexample: a reachable state of `PairsData::lookup` (the
initial symbol-loop state produced by `lookup`'s setup on `pairsCex`
at index 1) in which the found code length is `l = 64` and the loop
must consume the symbol.  There `code <<= 64` is NOT defined as zero:
with overflow checks it is an arithmetic-overflow panic (`none`), and
with wrapping (release) semantics the shift amount is masked to 0,
leaving the window at `code = 1` — had the shift produced zero, the
reloaded window would be 0, not 1. -/
theorem shift64_not_zero_cex :
    lookupSetup pairsCex 1 = some ⟨1, 0, 2, [0, 0, 0, 0]⟩ ∧
    findCodeLen pairsCex 1 = some 64 ∧
    symLoopStep pairsCex ⟨1, 0, 2, [0, 0, 0, 0]⟩ = none ∧
    symLoopStepWrap pairsCex ⟨1, 0, 2, [0, 0, 0, 0]⟩ =
      some (.more ⟨1, 32, 1, []⟩) ∧
    (1 : Nat) ≠ 0 := by
  refine ⟨by decide, by decide, by decide, by decide, by decide⟩

/-- C3 (amended): the symbol-loop shift `code <<= l` is defined only
for `l ≤ 63`, where it yields `code * 2^l mod 2^64`; at `l = 64` it
overflows — a panic under overflow checks, and under wrapping
(release) semantics a shift by `64 mod 64 = 0` that leaves the window
unchanged rather than zeroing it. -/
theorem shift64_behaviour (code l : Nat) (hl : l < 64) :
    shlU64Checked code l = some (code * 2 ^ l % 2 ^ 64) ∧
    shlU64Checked code 64 = none ∧
    (code < 2 ^ 64 → shlU64Wrap code 64 = code) := by
  refine ⟨?_, ?_, ?_⟩
  · unfold shlU64Checked
    rw [if_pos hl]
  · unfold shlU64Checked
    rw [if_neg (by omega)]
  · intro hc
    unfold shlU64Wrap
    norm_num
    exact hc

theorem shift64_behaviour_witness :
    shlU64Checked 1 3 = some (1 * 2 ^ 3 % 2 ^ 64) ∧
    shlU64Checked 1 64 = none ∧
    (1 < 2 ^ 64 → shlU64Wrap 1 64 = 1) :=
  shift64_behaviour 1 3 (by decide)
